import Mathlib

/-!
Verification development for the obsidian-to-denote converter
(src/obsidian_to_denote/converter.py).  The Python source is shallowly
embedded below: pure text transformations become Lean functions on
`String` / `List Char`, the converter's mutable mappings become explicit
state values, and fallible operations return `Except`.
-/

namespace ObsDenote

/-! ### Character classes of the Python regexes

`converter.py` uses the regular-expression classes `\w`, `\s` and literal
character tests.  The classes below model CPython's behaviour on concrete
code points (`Char.toNat` values), so that all character reasoning is
arithmetic on `Nat`.
-/

/-- Code points matched by Python's regex class `\s` (Unicode mode):
the ASCII whitespace characters 9-13 and 32, the separators 28-31,
and the Unicode whitespace code points 133, 160, 5760, 8192-8202,
8232, 8233, 8239, 8287 and 12288. -/
def isPySpace (c : Char) : Bool :=
  c.toNat = 32 || (9 ≤ c.toNat && c.toNat ≤ 13) || (28 ≤ c.toNat && c.toNat ≤ 31) ||
  c.toNat = 133 || c.toNat = 160 || c.toNat = 5760 ||
  (8192 ≤ c.toNat && c.toNat ≤ 8202) || c.toNat = 8232 || c.toNat = 8233 ||
  c.toNat = 8239 || c.toNat = 8287 || c.toNat = 12288

/-- ASCII uppercase letter A-Z. -/
def isAsciiUpperChar (c : Char) : Bool := 65 ≤ c.toNat && c.toNat ≤ 90

/-- ASCII lowercase letter a-z. -/
def isAsciiLowerChar (c : Char) : Bool := 97 ≤ c.toNat && c.toNat ≤ 122

/-- ASCII digit 0-9. -/
def isAsciiDigitChar (c : Char) : Bool := 48 ≤ c.toNat && c.toNat ≤ 57

/-- The underscore character. -/
def isUnderscoreChar (c : Char) : Bool := c.toNat = 95

/-- The hyphen character. -/
def isDashChar (c : Char) : Bool := c.toNat = 45

/-- Code points matched by Python's regex class `\w`, restricted to ASCII:
letters, digits and the underscore.  (Python's `\w` additionally matches
non-ASCII word characters; in `slugify` the class is only ever applied to
text already reduced to ASCII, where this model is exact.  For inline-tag
extraction the model is exact on ASCII content.) -/
def isPyWordAscii (c : Char) : Bool :=
  isAsciiUpperChar c || isAsciiLowerChar c || isAsciiDigitChar c || isUnderscoreChar c

/-- Python `str.lower()` on a single character, restricted to the ASCII
mapping A-Z to a-z (in `slugify` it is applied to ASCII-only text). -/
def pyLower (c : Char) : Char :=
  if isAsciiUpperChar c then Char.ofNat (c.toNat + 32) else c

/-- Characters kept by `re.sub(r'[^\w\s-]', '', ...)` in `slugify`
(converter.py:51): word characters, whitespace, and the hyphen. -/
def keepChar (c : Char) : Bool := isPyWordAscii c || isPySpace c || isDashChar c

/-- Characters matched by the class `[-\s]` of `re.sub(r'[-\s]+', '-', ...)`
in `slugify` (converter.py:52). -/
def isSep (c : Char) : Bool := isDashChar c || isPySpace c

/-- The character set `[a-z0-9_-]`: the alphabet the corrected slug-charset
claim allows (Python's `\w` keeps underscores, so they survive `slugify`). -/
def allowedChar (c : Char) : Bool :=
  isAsciiLowerChar c || isAsciiDigitChar c || isUnderscoreChar c || isDashChar c

/-- The character set `[a-z0-9-]` that the spec claims for slug outputs
(no underscore). -/
def specSlugChar (c : Char) : Bool :=
  isAsciiLowerChar c || isAsciiDigitChar c || isDashChar c

/-! ### slugify (converter.py:38-56) -/

/-- `unicodedata.normalize('NFKD', text).encode('ascii', 'ignore')`
(converter.py:48-49): the composition drops every non-ASCII code point.
NFKD is the identity on ASCII; decompositions of non-ASCII characters are
not expanded here (they are dropped whole), so the model is exact for
ASCII inputs, and for every input its output is ASCII -- which is all the
subsequent pipeline steps and the claims depend on. -/
def asciiFold (l : List Char) : List Char := l.filter (fun c => c.toNat < 128)

/-- `re.sub(r'[-\s]+', '-', text)` (converter.py:52): each maximal run of
hyphen/whitespace characters is replaced by a single hyphen. -/
def collapseSeps : List Char → List Char
  | [] => []
  | [c] => if isSep c then ['-'] else [c]
  | c :: d :: cs =>
    if isSep c then
      if isSep d then collapseSeps (d :: cs)
      else '-' :: collapseSeps (d :: cs)
    else c :: collapseSeps (d :: cs)

/-- Drop a leading run of hyphens (the left half of `str.strip('-')`). -/
def dropLeadDashes : List Char → List Char
  | [] => []
  | c :: cs => if isDashChar c then dropLeadDashes cs else c :: cs

/-- Drop a trailing run of hyphens (the right half of `str.strip('-')`). -/
def dropTailDashes : List Char → List Char
  | [] => []
  | c :: cs =>
    match dropTailDashes cs with
    | [] => if isDashChar c then [] else [c]
    | r => c :: r

/-- `text.strip('-')` (converter.py:53). -/
def stripDashes (l : List Char) : List Char := dropLeadDashes (dropTailDashes l)

/-- `ObsidianToDenoteConverter.slugify` (converter.py:38-56) on the
character list of the input text:
empty input returns `untitled`; otherwise drop non-ASCII, lowercase,
delete everything but word characters / whitespace / hyphens, collapse
hyphen-and-whitespace runs to single hyphens, strip edge hyphens, and
fall back to `untitled` when nothing remains. -/
def slugifyList (l : List Char) : List Char :=
  if l = [] then "untitled".data
  else if stripDashes (collapseSeps (((asciiFold l).map pyLower).filter keepChar)) = [] then
    "untitled".data
  else stripDashes (collapseSeps (((asciiFold l).map pyLower).filter keepChar))

/-- `slugify` on an optional text (`None` or a string): `if not text`
(converter.py:41) catches both `None` and the empty string. -/
def slugify (text : Option String) : String :=
  match text with
  | none => "untitled"
  | some s => String.mk (slugifyList s.data)

/-! ### Path stems and suffixes (`pathlib.Path.stem` / `.suffix`)

`convert_links` compares `Path(old_name).stem` with link targets and
`copy_asset` builds destination names from `asset_path.stem` and
`asset_path.suffix`.  Paths are modelled as POSIX path strings without a
trailing slash.
-/

/-- `Path(p).name`: the component after the last slash. -/
def baseName (p : String) : String :=
  String.mk ((p.data.reverse.takeWhile (fun c => c ≠ '/')).reverse)

/-- `Path(p).stem`: the name with its last suffix removed; a dot at
position 0 (dotfile) or at the very end does not begin a suffix. -/
def pathStem (p : String) : String :=
  let name := (baseName p).data
  match name.reverse.findIdx? (fun c => c == '.') with
  | none => String.mk name
  | some k =>
    let i := name.length - 1 - k
    if 0 < i && i < name.length - 1 then String.mk (name.take i) else String.mk name

/-- `Path(p).suffix`: the last suffix including its dot, or empty. -/
def pathSuffix (p : String) : String :=
  let name := (baseName p).data
  match name.reverse.findIdx? (fun c => c == '.') with
  | none => ""
  | some k =>
    let i := name.length - 1 - k
    if 0 < i && i < name.length - 1 then String.mk (name.drop i) else ""

/-! ### Data model: YAML metadata and timestamps

The spec's data model (§3) restricts metadata values to the shapes the
converter distinguishes: `title` a string, `aliases` and `tags` a string
or a list of strings, `created` a date-like value, plus arbitrary
passthrough keys (modelled only by their presence, which affects dict
truthiness).  Python `None` metadata is `Option.none`; the empty dict is
the record with every field absent.
-/

/-- A YAML value that is either a single string or a list of strings
(the two shapes `generate_denote_filename` distinguishes for `aliases`
and `tags`). -/
inductive StrOrList where
  | str (s : String)
  | list (l : List String)
deriving DecidableEq, Repr

/-- A timestamp with the fields `strftime` reads. -/
structure DenoteTime where
  year : Nat
  month : Nat
  day : Nat
  hour : Nat
  minute : Nat
  second : Nat
deriving DecidableEq, Repr

/-- Outcome of `datetime.fromisoformat(str(metadata['created']))`
(converter.py:82): either a parsed timestamp or a failure (the bare
`except` keeps the file-mtime fallback). -/
inductive CreatedVal where
  | parsed (t : DenoteTime)
  | unparseable
deriving DecidableEq, Repr

/-- YAML frontmatter mapping, restricted to the keys and value shapes the
converter inspects; `extra` records the presence of other keys (it only
affects the dict's truthiness). -/
structure Metadata where
  title : Option String := none
  aliases : Option StrOrList := none
  tags : Option StrOrList := none
  created : Option CreatedVal := none
  extra : List String := []
deriving DecidableEq, Repr

/-- Python truthiness of the metadata dict: non-empty. -/
def Metadata.truthy (m : Metadata) : Bool :=
  m.title.isSome || m.aliases.isSome || m.tags.isSome || m.created.isSome || !m.extra.isEmpty

/-- Zero-pad to two digits (`strftime` `%m`/`%d`/`%H`/`%M`/`%S`). -/
def pad2 (n : Nat) : String := if n < 10 then "0" ++ toString n else toString n

/-- Zero-pad to four digits (`strftime` `%Y`). -/
def pad4 (n : Nat) : String :=
  if n < 10 then "000" ++ toString n
  else if n < 100 then "00" ++ toString n
  else if n < 1000 then "0" ++ toString n
  else toString n

/-- `created_time.strftime('%Y%m%dT%H%M%S')` (converter.py:87). -/
def formatTs (t : DenoteTime) : String :=
  pad4 t.year ++ pad2 t.month ++ pad2 t.day ++ "T" ++ pad2 t.hour ++ pad2 t.minute ++ pad2 t.second

/-- `created_time.strftime('%Y-%m-%d')` (converter.py:484). -/
def formatDate (t : DenoteTime) : String :=
  pad4 t.year ++ "-" ++ pad2 t.month ++ "-" ++ pad2 t.day

/-- Output format selected at converter construction. -/
inductive OutFormat where
  | org
  | md
deriving DecidableEq, Repr

/-! ### extract_yaml_frontmatter (converter.py:58-72) -/

/-- Index of the first occurrence of the five-character delimiter
`"\n---\n"` in the scanned list (`str.index` on the text after the
opening delimiter). -/
def findDelim : List Char → Option Nat
  | '\n' :: '-' :: '-' :: '-' :: '\n' :: _ => some 0
  | _ :: cs => (findDelim cs).map (· + 1)
  | [] => none

/-- `extract_yaml_frontmatter` (converter.py:58-72).  `yaml.safe_load` is
a parameter `parse`: `.error` models a raised `yaml.YAMLError`, `.ok none`
models a document that loads as Python `None`, `.ok (some m)` a mapping.
The `str.index` failure (no closing delimiter) is the `ValueError` arm of
the `except`; both failure arms fall through to the initial
`(metadata, remaining_content) = (dict-empty, content)`. -/
def extractYamlFrontmatter (parse : String → Except Unit (Option Metadata))
    (content : String) : Option Metadata × String :=
  let l := content.data
  if l.take 4 = ['-', '-', '-', '\n'] then
    match findDelim (l.drop 4) with
    | some j =>
      match parse (String.mk ((l.drop 4).take j)) with
      | .ok m => (m, String.mk (l.drop (j + 9)))
      | .error _ => (some {}, content)
    | none => (some {}, content)
  else (some {}, content)

/-! ### generate_denote_filename (converter.py:74-139) -/

/-- Drop the current line: everything up to and including the next
newline. -/
def dropLine (l : List Char) : List Char := (l.dropWhile (fun c => c ≠ '\n')).tail

/-- Fuelled scanner for `findHeading`.  Every recursive call shortens the
scanned list by at least one character (`dropLine` of a non-empty list
drops at least its first character) while consuming exactly one unit of
fuel, so starting fuel `length + 1` never runs out. -/
def findHeadingGo : Nat → List Char → Option (List Char)
  | 0, _ => none
  | _ + 1, [] => none
  | fuel + 1, c :: cs =>
    if c = '#' then
      match cs with
      | [] => none
      | d :: _ =>
        if isPySpace d then
          let rest := cs.dropWhile isPySpace
          if rest.isEmpty then none
          else some (rest.takeWhile (fun x => x ≠ '\n'))
        else findHeadingGo fuel (dropLine (c :: cs))
    else findHeadingGo fuel (dropLine (c :: cs))

/-- `re.search(r'^#\s+(.+)$', content, re.MULTILINE)` (converter.py:104),
returning the captured group.  A match starts at a line start whose first
character is `#` followed by at least one `\s` character; `\s+` may run
across newlines, after which `(.+)$` captures the non-empty remainder of
the line where the whitespace run ends.  When the text after such a `#`
is all whitespace the whole search fails (every later line start lies in
that whitespace and cannot carry a `#`). -/
def findHeading (l : List Char) : Option (List Char) := findHeadingGo (l.length + 1) l

/-- Fuelled scanner for `inlineTags`; each recursive call shortens the
list by at least one character, so fuel `length + 1` never runs out. -/
def inlineTagsGo : Nat → List Char → List String
  | 0, _ => []
  | _ + 1, [] => []
  | fuel + 1, c :: cs =>
    if c = '#' then
      let run := cs.takeWhile isPyWordAscii
      if run.isEmpty then inlineTagsGo fuel cs
      else String.mk run :: inlineTagsGo fuel (cs.drop run.length)
    else inlineTagsGo fuel cs

/-- `re.findall(r'#(\w+)', content)` (converter.py:124): every `#`
followed by a maximal non-empty run of word characters yields an inline
tag; scanning resumes after the run. -/
def inlineTags (l : List Char) : List String := inlineTagsGo (l.length + 1) l

/-- Deduplication keeping first occurrences, with an accumulator of seen
elements.  (`list(set(...))` at converter.py:128; CPython's set iteration
order is unspecified, so a deterministic order is chosen here; no claim
depends on the order.) -/
def firstOccsAux (seen : List String) : List String → List String
  | [] => []
  | x :: xs => if x ∈ seen then firstOccsAux seen xs else x :: firstOccsAux (x :: seen) xs

/-- Deduplication keeping first occurrences. -/
def firstOccs (l : List String) : List String := firstOccsAux [] l

/-- The `aliases` branch of the title selection (converter.py:96-100):
a truthy aliases value yields its first element (for a list) or itself
(for a string); a falsy one leaves the fallback title. -/
def aliasTitle (m : Metadata) (fallback : String) : String :=
  match m.aliases with
  | some (.list (a :: _)) => a
  | some (.list []) => fallback
  | some (.str s) => if s = "" then fallback else s
  | none => fallback

/-- The metadata branch of the title selection (converter.py:93-100):
a truthy `title` value wins, otherwise the aliases branch runs. -/
def metaTitle (m : Metadata) (fallback : String) : String :=
  match m.title with
  | some t => if t = "" then aliasTitle m fallback else t
  | none => aliasTitle m fallback

/-- The `tags` extraction from metadata (converter.py:116-120): a list
keeps its truthy (non-empty) elements, a string is wrapped whole. -/
def metaTags (m : Metadata) : List String :=
  match m.tags with
  | some (.list l) => l.filter (fun t => t ≠ "")
  | some (.str s) => [s]
  | none => []

/-- `generate_denote_filename` (converter.py:74-139).  `os.stat(...)`'s
modification time is the explicit `mtime` argument and the input path is
represented by its `stem`.  Returns `(filename, title, tags, created_time)`
exactly as the Python function does. -/
def generateDenoteFilename (mtime : DenoteTime) (stem : String)
    (metadata : Option Metadata) (content : String) (fmt : OutFormat) :
    String × String × List String × DenoteTime :=
  let createdTime :=
    match metadata with
    | some m =>
      if m.truthy && m.created.isSome then
        match m.created with
        | some (.parsed t) => t
        | some .unparseable => mtime
        | none => mtime
      else mtime
    | none => mtime
  let title1 :=
    match metadata with
    | some m => if m.truthy then metaTitle m stem else stem
    | none => stem
  let title2 :=
    if title1 = stem && content ≠ "" then
      match findHeading content.data with
      | some h => String.mk h
      | none => title1
    else title1
  let title3 := if title2 = "" then "untitled" else title2
  let titleSlug := slugify (some title3)
  let tags0 :=
    match metadata with
    | some m => if m.truthy && m.tags.isSome then metaTags m else []
    | none => []
  let tags1 := tags0 ++ (if content ≠ "" then inlineTags content.data else [])
  let tags2 := firstOccs (tags1.filter (fun t => t ≠ ""))
  let tagsStr :=
    if tags2.isEmpty then ""
    else "__" ++ "_".intercalate (tags2.map (fun t => slugify (some t)))
  let ext := if fmt = OutFormat.org then ".org" else ".md"
  (formatTs createdTime ++ "--" ++ titleSlug ++ tagsStr ++ ext, title3, tags2, createdTime)

/-! ### convert_links (converter.py:141-184)

`re.sub(r'\[\[([^\]]+)\]\]', repl, content)` is modelled by a left-to-right
scan: at `[[` the engine takes the maximal run of non-`]` characters as
the group; the match succeeds iff the run is non-empty and followed by
`]]`; on failure the scan advances one character, exactly as the regex
engine's start position does.
-/

/-- Fuelled scanner for `subWiki`.  At a position starting with `[[` the
engine takes the maximal run of non-`]` characters as the group; the
match succeeds iff the run is non-empty and is followed by `]]`, in which
case scanning resumes after the match; otherwise the head character is
emitted and scanning resumes one position later, exactly as the regex
engine advances its start position.  Every recursive call shortens the
list by at least one character, so fuel `length + 1` never runs out. -/
def subWikiGo (repl : List Char → List Char) : Nat → List Char → List Char
  | 0, _ => []
  | _ + 1, [] => []
  | fuel + 1, c :: cs =>
    if c = '[' ∧ cs.take 1 = ['['] then
      let rest := cs.drop 1
      let inner := rest.takeWhile (fun x => x ≠ ']')
      if inner.isEmpty then '[' :: subWikiGo repl fuel cs
      else if (rest.drop inner.length).take 2 = [']', ']'] then
        repl inner ++ subWikiGo repl fuel (rest.drop (inner.length + 2))
      else '[' :: subWikiGo repl fuel cs
    else c :: subWikiGo repl fuel cs

/-- One `re.sub` pass over the wiki-link pattern `\[\[([^\]]+)\]\]` with a
replacement function (converter.py:160, 182). -/
def subWiki (repl : List Char → List Char) (l : List Char) : List Char :=
  subWikiGo repl (l.length + 1) l

/-- Fuelled scanner for `subEmbed`, with the same scanning discipline as
`subWikiGo` but for the three-character opener `![[`. -/
def subEmbedGo : Nat → List Char → List Char
  | 0, _ => []
  | _ + 1, [] => []
  | fuel + 1, c :: cs =>
    if c = '!' ∧ cs.take 2 = ['[', '['] then
      let rest := cs.drop 2
      let inner := rest.takeWhile (fun x => x ≠ ']')
      if inner.isEmpty then '!' :: subEmbedGo fuel cs
      else if (rest.drop inner.length).take 2 = [']', ']'] then
        "[[file:".data ++ inner ++ "]]".data ++ subEmbedGo fuel (rest.drop (inner.length + 2))
      else '!' :: subEmbedGo fuel cs
    else c :: subEmbedGo fuel cs

/-- One `re.sub` pass over the embed pattern `!\[\[([^\]]+)\]\]` with the
raw replacement `[[file:\1]]` (converter.py:163). -/
def subEmbed (l : List Char) : List Char := subEmbedGo (l.length + 1) l

/-- `link_text.split('|', 1)` inside `replace_link` (converter.py:147-150):
with a pipe, `(link, desc)` are the parts before and after the first pipe;
without one, both are the whole text. -/
def splitPipe (l : List Char) : List Char × List Char :=
  if l.contains '|' then (l.takeWhile (fun c => c ≠ '|'), (l.dropWhile (fun c => c ≠ '|')).tail)
  else (l, l)

/-- The file-mapping scan of `replace_link` (converter.py:153-156): the
first mapping entry whose original stem equals the link replaces it with
the new name's stem; otherwise the link is unchanged.  The mapping is an
insertion-ordered association list of `(original path, new filename)`, as
the converter's dict is. -/
def resolveLink (mapping : List (String × String)) (link : String) : String :=
  match mapping.find? (fun e => pathStem e.1 == link) with
  | some e => pathStem e.2
  | none => link

/-- `replace_link` (converter.py:145-158 for org, 167-180 for markdown):
split off a display text, resolve through the file mapping, and rebuild
the link in the target syntax. -/
def wikiRepl (mapping : List (String × String)) (isOrg : Bool) (inner : List Char) : List Char :=
  let p := splitPipe inner
  let resolved := resolveLink mapping (String.mk p.1)
  if isOrg then "[[file:".data ++ resolved.data ++ ".org][".data ++ p.2 ++ "]]".data
  else "[".data ++ p.2 ++ "](".data ++ resolved.data ++ ".md)".data

/-- `convert_links` (converter.py:141-184): for org, the wiki-link pass
then the embed pass; for markdown, the wiki-link pass only when link
preservation is off, else the content unchanged. -/
def convertLinks (preserveLinks : Bool) (mapping : List (String × String))
    (content : String) (isOrg : Bool) : String :=
  if isOrg then String.mk (subEmbed (subWiki (wikiRepl mapping true) content.data))
  else if !preserveLinks then String.mk (subWiki (wikiRepl mapping false) content.data)
  else content

/-! ### copy_asset (converter.py:240-256) -/

/-- The converter's asset state: `asset_mapping` (source path to
output-relative destination) plus a log of the physical `shutil.copy2`
calls performed, each recorded as `(source, destination)`. -/
structure AssetState where
  mapping : List (String × String) := []
  copies : List (String × String) := []
deriving DecidableEq, Repr

/-- The destination path (relative to the output directory) that
`copy_asset` computes for a source path: the configured assets
subdirectory plus `<stem>_<first 8 digest characters><suffix>`
(converter.py:244-248).  `digest` abstracts `hashlib.md5(...).hexdigest()`. -/
def canonicalAssetDest (digest : String → String) (assetsDir : String) (p : String) : String :=
  assetsDir ++ "/" ++ (pathStem p ++ "_" ++ (digest p).take 8 ++ pathSuffix p)

/-- `copy_asset` (converter.py:240-256): if the source path is not yet in
the asset mapping, perform the physical copy (logged) and record the
relative destination; in all cases return the mapped destination. -/
def copyAsset (digest : String → String) (assetsDir : String) (p : String)
    (st : AssetState) : String × AssetState :=
  match st.mapping.find? (fun e => e.1 == p) with
  | some e => (e.2, st)
  | none =>
    let rel := canonicalAssetDest digest assetsDir p
    (rel, { mapping := st.mapping ++ [(p, rel)], copies := st.copies ++ [(p, rel)] })

/-- A sequence of `copy_asset` calls within one converter run: returns the
per-call results and the final state. -/
def runCopyAssets (digest : String → String) (assetsDir : String) :
    List String → AssetState → List String × AssetState
  | [], st => ([], st)
  | p :: ps, st =>
    let r := copyAsset digest assetsDir p st
    let rs := runCopyAssets digest assetsDir ps r.2
    (r.1 :: rs.1, rs.2)

/-- Number of physical copies logged for a given source path. -/
def countCopiesFor (copies : List (String × String)) (k : String) : Nat :=
  (copies.filter (fun e => e.1 == k)).length

/-! ### convert_file (converter.py:434-505) and convert_directory
(converter.py:507-567)

`convert_file` is embedded for the configuration exercised by the
directory-walk claims: `output_format='md'`, `preserve_links=True`,
`assets_handling='ignore'` (in which `process_assets` returns the content
unchanged, converter.py:260-261).  Reading the input file is the one
fallible step and is part of the file value; writing the output file is
represented by returning the produced `(filename, content)` pair.
-/

instance {ε α : Type} [DecidableEq ε] [DecidableEq α] : DecidableEq (Except ε α) := fun x y =>
  match x, y with
  | .ok a, .ok b =>
    if h : a = b then isTrue (by rw [h]) else isFalse (fun he => h (Except.ok.inj he))
  | .error a, .error b =>
    if h : a = b then isTrue (by rw [h]) else isFalse (fun he => h (Except.error.inj he))
  | .ok _, .error _ => isFalse (fun he => Except.noConfusion he)
  | .error _, .ok _ => isFalse (fun he => Except.noConfusion he)

/-- A discovered markdown file: its path components relative to the input
directory (last component is the filename), the outcome of reading it,
and its filesystem modification time. -/
structure FsFile where
  parts : List String
  read : Except String String
  mtime : DenoteTime
deriving DecidableEq, Repr

/-- The path string of a file (POSIX join of its components). -/
def joinParts (parts : List String) : String := "/".intercalate parts

/-- `convert_file` (converter.py:434-505) in the markdown /
preserve-links / ignore-assets configuration: read, split frontmatter,
generate the Denote filename, record the file-mapping entry, rewrite
links (the identity here, since `preserve_links` is set), and prepend the
Denote-style frontmatter block.  Returns the produced
`(filename, content)` pair and the updated file mapping. -/
def convertFileMd (parse : String → Except Unit (Option Metadata))
    (fileMapping : List (String × String)) (f : FsFile) :
    Except String ((String × String) × List (String × String)) := do
  let content ← f.read
  let e := extractYamlFrontmatter parse content
  let metadata := e.1
  let remaining := e.2
  let r := generateDenoteFilename f.mtime (pathStem (joinParts f.parts)) metadata remaining OutFormat.md
  let denoteFilename := r.1
  let title := r.2.1
  let tags := r.2.2.1
  let createdTime := r.2.2.2
  let fileMapping' := fileMapping ++ [(joinParts f.parts, denoteFilename)]
  let converted := convertLinks true fileMapping' remaining false
  let header :=
    "---\ntitle: " ++ title ++ "\ndate: " ++ formatDate createdTime ++
    "\ntags: " ++ ", ".intercalate tags ++ "\nidentifier: " ++ formatTs createdTime ++ "\n---\n"
  pure ((denoteFilename, header ++ converted), fileMapping')

/-- The mutation of the local `metadata` dict in the `add_folder_tags`
branch (converter.py:543-549): wrap a string-valued `tags`, default a
missing one to the empty list, and extend with the slugified folder-path
components. -/
def addFolderTagsToMeta (m : Metadata) (parentParts : List String) : Metadata :=
  let folderTags := parentParts.map (fun part => slugify (some part))
  let baseTags :=
    match m.tags with
    | none => []
    | some (.str s) => [s]
    | some (.list l) => l
  { m with tags := some (StrOrList.list (baseTags ++ folderTags)) }

/-- The body of the per-file `try` block of `convert_directory`
(converter.py:530-553): when `add_folder_tags` is set and the file lies
in a subdirectory, the file is read and a local metadata dict is mutated
to carry the folder tags -- and, exactly as in the source, that mutated
dict is never passed on: `convert_file` re-reads the file and re-extracts
its metadata itself (converter.py:551-553, 445-448). -/
def convertOne (parse : String → Except Unit (Option Metadata)) (addFolderTags : Bool)
    (fileMapping : List (String × String)) (f : FsFile) :
    Except String ((String × String) × List (String × String)) := do
  if addFolderTags && !(f.parts.dropLast.isEmpty) then
    let content ← f.read
    let e := extractYamlFrontmatter parse content
    let md := e.1.getD {}
    let _mutatedButUnused := addFolderTagsToMeta md f.parts.dropLast
    pure ()
  else
    pure ()
  convertFileMd parse fileMapping f

/-- The per-file loop of `convert_directory` (converter.py:528-567): each
file is converted inside a `try`; a failure is reported and the loop
continues, so a failed file contributes nothing to the returned list. -/
def convertDirectoryMd (parse : String → Except Unit (Option Metadata)) (addFolderTags : Bool) :
    List FsFile → List (String × String) → List (String × String)
  | [], _ => []
  | f :: fs, fileMapping =>
    match convertOne parse addFolderTags fileMapping f with
    | .ok out => out.1 :: convertDirectoryMd parse addFolderTags fs out.2
    | .error _ => convertDirectoryMd parse addFolderTags fs fileMapping

/-! ### Predicates used by the theorems -/

/-- No two adjacent separator characters (the shape `re.sub(r'[-\s]+','-')`
leaves behind). -/
def noDD : List Char → Bool
  | c :: d :: cs => (!(isSep c && isSep d)) && noDD (d :: cs)
  | _ => true

/-- Whether the last character is a hyphen. -/
def lastIsDash : List Char → Bool
  | [] => false
  | [c] => isDashChar c
  | _ :: cs => lastIsDash cs

/-- The invariant of `slugify` outputs: non-empty, all characters in
`[a-z0-9_-]`, no two adjacent separators, and no hyphen at either end. -/
def isSlugList (l : List Char) : Bool :=
  !l.isEmpty && l.all allowedChar && noDD l &&
  (match l.head? with
   | some h => !isDashChar h
   | none => true) && !lastIsDash l

/-- Characters allowed in a plain link target for the link-rewriting
theorems: none of `]`, `[`, `!`, `|`. -/
def plainLinkChar (c : Char) : Bool := c ≠ ']' && c ≠ '[' && c ≠ '!' && c ≠ '|'

/-- Characters allowed in a display text: none of `]`, `[`, `!`
(a pipe may appear, `split('|', 1)` keeps it in the display part). -/
def displayChar (c : Char) : Bool := c ≠ ']' && c ≠ '[' && c ≠ '!'

/-- A YAML parser stub that always raises, for witnesses whose inputs
carry no frontmatter or malformed frontmatter. -/
def failParse : String → Except Unit (Option Metadata) := fun _ => Except.error ()

/-- A concrete timestamp for witnesses: 2024-01-15 10:30:00. -/
def sampleTime : DenoteTime := ⟨2024, 1, 15, 10, 30, 0⟩

end ObsDenote

namespace ObsDenote

/-! ## Theorems

### Character-level facts -/

theorem charOfNat_plus32 : ∀ n : Nat, n < 91 → 65 ≤ n → (Char.ofNat (n + 32)).toNat = n + 32 := by
  decide

theorem charEq_of_toNat {c d : Char} (h : c.toNat = d.toNat) : c = d := by
  rw [← Char.ofNat_toNat c, ← Char.ofNat_toNat d, h]

theorem pyLower_toNat (c : Char) :
    (pyLower c).toNat = if 65 ≤ c.toNat ∧ c.toNat ≤ 90 then c.toNat + 32 else c.toNat := by
  unfold pyLower isAsciiUpperChar
  by_cases h : 65 ≤ c.toNat ∧ c.toNat ≤ 90
  · rw [if_pos h]
    have hb : (decide (65 ≤ c.toNat) && decide (c.toNat ≤ 90)) = true := by
      simp [h.1, h.2]
    rw [if_pos hb]
    exact charOfNat_plus32 c.toNat (by omega) h.1
  · rw [if_neg h]
    have hb : ¬((decide (65 ≤ c.toNat) && decide (c.toNat ≤ 90)) = true) := by
      simp only [Bool.and_eq_true, decide_eq_true_eq]
      exact h
    rw [if_neg hb]

theorem pyLower_not_upper (c : Char) : isAsciiUpperChar (pyLower c) = false := by
  have h := pyLower_toNat c
  simp only [isAsciiUpperChar, Bool.and_eq_false_iff, decide_eq_false_iff_not]
  by_cases hc : 65 ≤ c.toNat ∧ c.toNat ≤ 90
  · rw [if_pos hc] at h; omega
  · rw [if_neg hc] at h; omega

theorem pyLower_eq_of_not_upper {c : Char} (h : isAsciiUpperChar c = false) : pyLower c = c := by
  unfold pyLower
  rw [h]
  rfl

theorem allowedChar_ranges {c : Char} (h : allowedChar c = true) :
    (97 ≤ c.toNat ∧ c.toNat ≤ 122) ∨ (48 ≤ c.toNat ∧ c.toNat ≤ 57) ∨ c.toNat = 95 ∨ c.toNat = 45 := by
  have := h
  simp only [allowedChar, isAsciiLowerChar, isAsciiDigitChar, isUnderscoreChar, isDashChar,
    Bool.or_eq_true, Bool.and_eq_true, decide_eq_true_eq] at this
  tauto

theorem allowedChar_ascii {c : Char} (h : allowedChar c = true) : c.toNat < 128 := by
  rcases allowedChar_ranges h with h1 | h1 | h1 | h1 <;> omega

theorem allowedChar_not_space {c : Char} (h : allowedChar c = true) : isPySpace c = false := by
  have := allowedChar_ranges h
  simp only [isPySpace, Bool.or_eq_false_iff, Bool.and_eq_false_iff, decide_eq_false_iff_not]
  omega

theorem allowedChar_keep {c : Char} (h : allowedChar c = true) : keepChar c = true := by
  have := allowedChar_ranges h
  simp only [keepChar, isPyWordAscii, isAsciiUpperChar, isAsciiLowerChar, isAsciiDigitChar,
    isUnderscoreChar, isPySpace, isDashChar, Bool.or_eq_true, Bool.and_eq_true, decide_eq_true_eq]
  omega

theorem allowedChar_not_upper {c : Char} (h : allowedChar c = true) : isAsciiUpperChar c = false := by
  have := allowedChar_ranges h
  simp only [isAsciiUpperChar, Bool.and_eq_false_iff, decide_eq_false_iff_not]
  omega

theorem allowedChar_isSep {c : Char} (h : allowedChar c = true) : isSep c = isDashChar c := by
  unfold isSep
  rw [allowedChar_not_space h]
  simp

theorem word_not_sep_allowed {c : Char} (hk : keepChar c = true) (hs : isSep c = false)
    (hu : isAsciiUpperChar c = false) : allowedChar c = true := by
  simp only [keepChar, isPyWordAscii, isAsciiUpperChar, isAsciiLowerChar, isAsciiDigitChar,
    isUnderscoreChar, isPySpace, isDashChar, Bool.or_eq_true, Bool.and_eq_true,
    decide_eq_true_eq] at hk
  simp only [isSep, isDashChar, isPySpace, Bool.or_eq_false_iff, Bool.and_eq_false_iff,
    decide_eq_false_iff_not] at hs
  simp only [isAsciiUpperChar, Bool.and_eq_false_iff, decide_eq_false_iff_not] at hu
  simp only [allowedChar, isAsciiLowerChar, isAsciiDigitChar, isUnderscoreChar, isDashChar,
    Bool.or_eq_true, Bool.and_eq_true, decide_eq_true_eq]
  omega

theorem dash_eq_of_isDash {c : Char} (h : isDashChar c = true) : c = '-' := by
  apply charEq_of_toNat
  simpa only [isDashChar, decide_eq_true_eq] using h

end ObsDenote

namespace ObsDenote

/-! ### Shape of `collapseSeps` and `stripDashes` outputs -/

theorem mem_collapseSeps : ∀ l : List Char, ∀ c ∈ collapseSeps l,
    c = '-' ∨ (c ∈ l ∧ isSep c = false) := by
  intro l
  induction l using collapseSeps.induct with
  | case1 => intro c h; simp [collapseSeps] at h
  | case2 a ha =>
    intro c h
    simp only [collapseSeps, ha, if_pos, List.mem_singleton] at h
    exact Or.inl h
  | case3 a ha =>
    intro c h
    simp only [collapseSeps, if_neg ha, List.mem_singleton] at h
    subst h
    exact Or.inr ⟨List.mem_singleton_self c, by simpa using ha⟩
  | case4 a d cs ha hd ih =>
    intro c h
    rw [show collapseSeps (a :: d :: cs) = collapseSeps (d :: cs) by
      simp [collapseSeps, ha, hd]] at h
    rcases ih c h with h1 | ⟨h1, h2⟩
    · exact Or.inl h1
    · exact Or.inr ⟨List.mem_cons_of_mem a h1, h2⟩
  | case5 a d cs ha hd ih =>
    intro c h
    rw [show collapseSeps (a :: d :: cs) = '-' :: collapseSeps (d :: cs) by
      simp [collapseSeps, ha, hd]] at h
    rcases List.mem_cons.mp h with h1 | h1
    · exact Or.inl h1
    · rcases ih c h1 with h2 | ⟨h2, h3⟩
      · exact Or.inl h2
      · exact Or.inr ⟨List.mem_cons_of_mem a h2, h3⟩
  | case6 a d cs ha ih =>
    intro c h
    rw [show collapseSeps (a :: d :: cs) = a :: collapseSeps (d :: cs) by
      simp [collapseSeps, ha]] at h
    rcases List.mem_cons.mp h with h1 | h1
    · subst h1
      exact Or.inr ⟨List.mem_cons_self c (d :: cs), by simpa using ha⟩
    · rcases ih c h1 with h2 | ⟨h2, h3⟩
      · exact Or.inl h2
      · exact Or.inr ⟨List.mem_cons_of_mem a h2, h3⟩

theorem collapseSeps_headQ : ∀ (d : Char) (cs : List Char),
    (collapseSeps (d :: cs)).head? = some (if isSep d then '-' else d) := by
  intro d cs
  induction cs generalizing d with
  | nil =>
    by_cases hd : isSep d = true
    · simp [collapseSeps, hd]
    · simp [collapseSeps, hd]
  | cons e es ih =>
    by_cases hd : isSep d = true
    · by_cases he : isSep e = true
      · rw [show collapseSeps (d :: e :: es) = collapseSeps (e :: es) by
          simp [collapseSeps, hd, he]]
        rw [ih e]
        simp [hd, he]
      · rw [show collapseSeps (d :: e :: es) = '-' :: collapseSeps (e :: es) by
          simp [collapseSeps, hd, he]]
        simp [hd]
    · rw [show collapseSeps (d :: e :: es) = d :: collapseSeps (e :: es) by
        simp [collapseSeps, hd]]
      simp [hd]

theorem noDD_tail {c : Char} {l : List Char} (h : noDD (c :: l) = true) : noDD l = true := by
  cases l with
  | nil => rfl
  | cons d ds =>
    simp only [noDD, Bool.and_eq_true] at h
    exact h.2

theorem noDD_cons_of {c : Char} {l : List Char} (h1 : noDD l = true)
    (h2 : ∀ d, l.head? = some d → (isSep c && isSep d) = false) : noDD (c :: l) = true := by
  cases l with
  | nil => rfl
  | cons d ds =>
    simp only [noDD, Bool.and_eq_true]
    refine ⟨?_, h1⟩
    rw [h2 d rfl]
    rfl

theorem noDD_collapseSeps : ∀ l : List Char, noDD (collapseSeps l) = true := by
  intro l
  induction l using collapseSeps.induct with
  | case1 => rfl
  | case2 a ha => simp [collapseSeps, ha, noDD]
  | case3 a ha => simp [collapseSeps, ha, noDD]
  | case4 a d cs ha hd ih =>
    rw [show collapseSeps (a :: d :: cs) = collapseSeps (d :: cs) by
      simp [collapseSeps, ha, hd]]
    exact ih
  | case5 a d cs ha hd ih =>
    rw [show collapseSeps (a :: d :: cs) = '-' :: collapseSeps (d :: cs) by
      simp [collapseSeps, ha, hd]]
    apply noDD_cons_of ih
    intro x hx
    rw [collapseSeps_headQ d cs] at hx
    have hx2 : x = if isSep d = true then '-' else d := by
      injection hx with hinj
      exact hinj.symm
    rw [if_neg hd] at hx2
    subst hx2
    simp only [Bool.and_eq_false_iff]
    right
    simpa using hd
  | case6 a d cs ha ih =>
    rw [show collapseSeps (a :: d :: cs) = a :: collapseSeps (d :: cs) by
      simp [collapseSeps, ha]]
    apply noDD_cons_of ih
    intro x _
    simp only [Bool.and_eq_false_iff]
    left
    simpa using ha

theorem collapseSeps_id : ∀ l : List Char, (∀ c ∈ l, allowedChar c = true) → noDD l = true →
    collapseSeps l = l := by
  intro l
  induction l using collapseSeps.induct with
  | case1 => intro _ _; rfl
  | case2 a ha =>
    intro hall _
    have haa := hall a (List.mem_singleton_self a)
    have hd : isDashChar a = true := by rw [← allowedChar_isSep haa]; exact ha
    rw [show collapseSeps [a] = ['-'] by simp [collapseSeps, ha]]
    rw [dash_eq_of_isDash hd]
  | case3 a ha =>
    intro _ _
    simp [collapseSeps, ha]
  | case4 a d cs ha hd ih =>
    intro hall hdd
    exfalso
    simp only [noDD, Bool.and_eq_true, Bool.not_eq_true', Bool.and_eq_false_iff] at hdd
    rcases hdd.1 with h | h
    · rw [ha] at h; exact Bool.noConfusion h
    · rw [hd] at h; exact Bool.noConfusion h
  | case5 a d cs ha hd ih =>
    intro hall hdd
    have haa := hall a (List.mem_cons_self a (d :: cs))
    have hdash : isDashChar a = true := by rw [← allowedChar_isSep haa]; exact ha
    have hrec : collapseSeps (d :: cs) = d :: cs :=
      ih (fun c hc => hall c (List.mem_cons_of_mem a hc)) (noDD_tail hdd)
    rw [show collapseSeps (a :: d :: cs) = '-' :: collapseSeps (d :: cs) by
      simp [collapseSeps, ha, hd]]
    rw [hrec, dash_eq_of_isDash hdash]
  | case6 a d cs ha ih =>
    intro hall hdd
    have hrec : collapseSeps (d :: cs) = d :: cs :=
      ih (fun c hc => hall c (List.mem_cons_of_mem a hc)) (noDD_tail hdd)
    rw [show collapseSeps (a :: d :: cs) = a :: collapseSeps (d :: cs) by
      simp [collapseSeps, ha]]
    rw [hrec]

end ObsDenote

namespace ObsDenote

theorem mem_dropLeadDashes : ∀ l : List Char, ∀ c ∈ dropLeadDashes l, c ∈ l := by
  intro l
  induction l with
  | nil => intro c h; simp [dropLeadDashes] at h
  | cons a as ih =>
    intro c h
    by_cases ha : isDashChar a = true
    · simp only [dropLeadDashes, ha, if_pos] at h
      exact List.mem_cons_of_mem a (ih c h)
    · simp only [dropLeadDashes, ha, if_neg, Bool.false_eq_true, not_false_iff] at h
      exact h

theorem mem_dropTailDashes : ∀ l : List Char, ∀ c ∈ dropTailDashes l, c ∈ l := by
  intro l
  induction l with
  | nil => intro c h; simp [dropTailDashes] at h
  | cons a as ih =>
    intro c h
    rw [dropTailDashes] at h
    rcases hr : dropTailDashes as with _ | ⟨x, xs⟩
    · rw [hr] at h
      by_cases ha : isDashChar a = true
      · simp [ha] at h
      · simp only [ha, Bool.false_eq_true, if_neg, not_false_iff, List.mem_singleton] at h
        subst h
        exact List.mem_cons_self c as
    · rw [hr] at h
      rcases List.mem_cons.mp h with h1 | h1
      · subst h1; exact List.mem_cons_self c as
      · exact List.mem_cons_of_mem a (ih c (hr ▸ h1))

theorem dropLeadDashes_headQ : ∀ l : List Char, ∀ h, (dropLeadDashes l).head? = some h →
    isDashChar h = false := by
  intro l
  induction l with
  | nil => intro h hh; simp [dropLeadDashes] at hh
  | cons a as ih =>
    intro h hh
    by_cases ha : isDashChar a = true
    · rw [dropLeadDashes, if_pos ha] at hh
      exact ih h hh
    · rw [dropLeadDashes, if_neg ha] at hh
      have : a = h := by injection hh
      subst this
      simpa using ha

theorem lastIsDash_cons {l : List Char} (c : Char) (h : l ≠ []) :
    lastIsDash (c :: l) = lastIsDash l := by
  cases l with
  | nil => exact absurd rfl h
  | cons d ds => rfl

theorem dropTailDashes_lastNot : ∀ l : List Char, lastIsDash (dropTailDashes l) = false := by
  intro l
  induction l with
  | nil => rfl
  | cons a as ih =>
    rw [dropTailDashes]
    rcases hr : dropTailDashes as with _ | ⟨x, xs⟩
    · by_cases ha : isDashChar a = true
      · rw [if_pos ha]; rfl
      · rw [if_neg ha]
        simpa [lastIsDash] using ha
    · rw [lastIsDash_cons a (by simp)]
      rw [← hr]
      exact ih

theorem dropLeadDashes_lastNot : ∀ l : List Char, lastIsDash l = false →
    lastIsDash (dropLeadDashes l) = false := by
  intro l
  induction l with
  | nil => intro _; rfl
  | cons a as ih =>
    intro h
    by_cases ha : isDashChar a = true
    · rw [dropLeadDashes, if_pos ha]
      apply ih
      cases as with
      | nil => rw [lastIsDash] at h; rw [ha] at h; exact absurd h (by simp)
      | cons b bs => rwa [lastIsDash_cons a (by simp)] at h
    · rwa [dropLeadDashes, if_neg ha]

theorem dropTailDashes_headQ : ∀ l : List Char, dropTailDashes l ≠ [] →
    (dropTailDashes l).head? = l.head? := by
  intro l
  induction l with
  | nil => intro h; exact absurd rfl h
  | cons a as _ =>
    intro hne
    rw [dropTailDashes] at hne ⊢
    rcases hr : dropTailDashes as with _ | ⟨x, xs⟩
    · by_cases ha : isDashChar a = true
      · exact absurd (by rw [hr]; simp [ha]) hne
      · simp [ha]
    · rfl

theorem noDD_dropTailDashes : ∀ l : List Char, noDD l = true → noDD (dropTailDashes l) = true := by
  intro l
  induction l with
  | nil => intro _; rfl
  | cons a as ih =>
    intro h
    rw [dropTailDashes]
    rcases hr : dropTailDashes as with _ | ⟨x, xs⟩
    · by_cases ha : isDashChar a = true
      · simp only [ha, if_pos]; rfl
      · simp only [ha, Bool.false_eq_true, if_neg, not_false_iff]; rfl
    · show noDD (a :: x :: xs) = true
      have hx : noDD (x :: xs) = true := by rw [← hr]; exact ih (noDD_tail h)
      apply noDD_cons_of hx
      intro d hd
      have hhead : (x :: xs).head? = as.head? := by
        rw [← hr]
        exact dropTailDashes_headQ as (by rw [hr]; simp)
      rw [hhead] at hd
      cases as with
      | nil => simp at hd
      | cons b bs =>
        have : b = d := by injection hd
        subst this
        simp only [noDD, Bool.and_eq_true, Bool.not_eq_true', Bool.and_eq_false_iff] at h
        rcases h.1 with h1 | h1 <;> simp [h1]

theorem noDD_dropLeadDashes : ∀ l : List Char, noDD l = true →
    noDD (dropLeadDashes l) = true := by
  intro l
  induction l with
  | nil => intro _; rfl
  | cons a as ih =>
    intro h
    by_cases ha : isDashChar a = true
    · rw [dropLeadDashes, if_pos ha]
      exact ih (noDD_tail h)
    · rwa [dropLeadDashes, if_neg ha]

theorem dropLeadDashes_id : ∀ l : List Char, (∀ h, l.head? = some h → isDashChar h = false) →
    dropLeadDashes l = l := by
  intro l hh
  cases l with
  | nil => rfl
  | cons a as =>
    rw [dropLeadDashes, if_neg]
    rw [hh a rfl]
    simp

theorem dropTailDashes_id : ∀ l : List Char, lastIsDash l = false → dropTailDashes l = l := by
  intro l
  induction l with
  | nil => intro _; rfl
  | cons a as ih =>
    intro h
    rw [dropTailDashes]
    cases as with
    | nil =>
      rw [show dropTailDashes [] = ([] : List Char) from rfl]
      rw [lastIsDash] at h
      rw [if_neg (by rw [h]; simp)]
    | cons b bs =>
      have has : lastIsDash (b :: bs) = false := by
        rwa [lastIsDash_cons a (by simp)] at h
      rw [ih has]

end ObsDenote

namespace ObsDenote

/-! ### The slug invariant: outputs of `slugify` satisfy it, and strings
satisfying it are fixed points -/

theorem map_eq_self_of {α : Type} {f : α → α} : ∀ l : List α, (∀ a ∈ l, f a = a) →
    l.map f = l := by
  intro l
  induction l with
  | nil => intro _; rfl
  | cons a as ih =>
    intro h
    rw [List.map_cons, h a (List.mem_cons_self a as), ih (fun b hb => h b (List.mem_cons_of_mem a hb))]

theorem slugifyList_isSlug (l : List Char) : isSlugList (slugifyList l) = true := by
  rw [slugifyList]
  by_cases h0 : l = []
  · rw [if_pos h0]; decide
  · rw [if_neg h0]
    by_cases h4 : stripDashes (collapseSeps (((asciiFold l).map pyLower).filter keepChar)) = []
    · rw [if_pos h4]; decide
    · rw [if_neg h4]
      have hchars : ∀ c ∈ stripDashes (collapseSeps (((asciiFold l).map pyLower).filter keepChar)),
          allowedChar c = true := by
        intro c hc
        rw [stripDashes] at hc
        have hc2 := mem_dropTailDashes _ c (mem_dropLeadDashes _ c hc)
        rcases mem_collapseSeps _ c hc2 with h1 | ⟨h1, h2⟩
        · subst h1; decide
        · rcases List.mem_filter.mp h1 with ⟨hmem, hkeep⟩
          rcases List.mem_map.mp hmem with ⟨a, _, ha2⟩
          exact word_not_sep_allowed hkeep h2 (ha2 ▸ pyLower_not_upper a)
      have hnodd : noDD (stripDashes (collapseSeps (((asciiFold l).map pyLower).filter keepChar))) = true := by
        rw [stripDashes]
        exact noDD_dropLeadDashes _ (noDD_dropTailDashes _ (noDD_collapseSeps _))
      have hlast : lastIsDash (stripDashes (collapseSeps (((asciiFold l).map pyLower).filter keepChar))) = false := by
        rw [stripDashes]
        exact dropLeadDashes_lastNot _ (dropTailDashes_lastNot _)
      simp only [isSlugList, Bool.and_eq_true]
      refine ⟨⟨⟨⟨?_, ?_⟩, ?_⟩, ?_⟩, ?_⟩
      · simp only [Bool.not_eq_true']
        rw [List.isEmpty_eq_false_iff_exists_mem]
        rcases List.exists_cons_of_ne_nil h4 with ⟨x, xs, hx⟩
        exact ⟨x, hx ▸ List.mem_cons_self x xs⟩
      · rw [List.all_eq_true]
        intro c hc
        exact hchars c hc
      · exact hnodd
      · rcases List.exists_cons_of_ne_nil h4 with ⟨x, xs, hx⟩
        rw [hx]
        show (!isDashChar x) = true
        have hh : (stripDashes (collapseSeps (((asciiFold l).map pyLower).filter keepChar))).head? = some x := by
          rw [hx]; rfl
        rw [stripDashes] at hh
        rw [dropLeadDashes_headQ _ x hh]
        rfl
      · rw [hlast]
        rfl

theorem slugifyList_fix (l : List Char) (h : isSlugList l = true) : slugifyList l = l := by
  simp only [isSlugList, Bool.and_eq_true] at h
  obtain ⟨⟨⟨⟨h1, h2⟩, h3⟩, h4⟩, h5⟩ := h
  have hne : l ≠ [] := by
    intro he
    subst he
    exact Bool.noConfusion h1
  have hall : ∀ c ∈ l, allowedChar c = true := by
    rw [List.all_eq_true] at h2
    exact fun c hc => h2 c hc
  have e1 : asciiFold l = l := by
    apply List.filter_eq_self.mpr
    intro a ha
    simpa using allowedChar_ascii (hall a ha)
  have e2 : l.map pyLower = l :=
    map_eq_self_of l (fun a ha => pyLower_eq_of_not_upper (allowedChar_not_upper (hall a ha)))
  have e3 : l.filter keepChar = l :=
    List.filter_eq_self.mpr (fun a ha => allowedChar_keep (hall a ha))
  have e4 : collapseSeps l = l := collapseSeps_id l hall h3
  have e5 : dropTailDashes l = l := dropTailDashes_id l (by
    simp only [Bool.not_eq_true'] at h5
    exact h5)
  have e6 : dropLeadDashes l = l := by
    apply dropLeadDashes_id
    intro x hx
    rw [hx] at h4
    simp only [Bool.not_eq_true'] at h4
    exact h4
  rw [slugifyList, if_neg hne, e1, e2, e3, e4, stripDashes, e5, e6, if_neg hne]

end ObsDenote

namespace ObsDenote

theorem slugify_isSlug (t : Option String) : isSlugList (slugify t).data = true := by
  cases t with
  | none => decide
  | some s => exact slugifyList_isSlug s.data

/-- C1 counterexample: the claim says every `slugify` output contains no
characters outside `[a-z0-9-]`, but `slugify('hello_world')` returns
`hello_world`, whose underscore lies outside that set (Python's `\w`
keeps underscores). -/
theorem claim_C1_counterexample :
    slugify (some "hello_world") = "hello_world" ∧
    ((slugify (some "hello_world")).data.all specSlugChar) = false := by
  decide

/-- C1 (amended): slugify is total and deterministic; for every input
(including None and the empty string) it returns a non-empty string whose
characters all lie in `[a-z0-9_-]` (underscores are word characters and
survive), and for absent or empty input it returns exactly `untitled`. -/
theorem claim_C1_amended :
    (∀ t : Option String, slugify t ≠ "" ∧ ∀ c ∈ (slugify t).data, allowedChar c = true) ∧
    slugify none = "untitled" ∧ slugify (some "") = "untitled" := by
  refine ⟨?_, by decide, by decide⟩
  intro t
  have h := slugify_isSlug t
  simp only [isSlugList, Bool.and_eq_true] at h
  obtain ⟨⟨⟨⟨h1, h2⟩, _⟩, _⟩, _⟩ := h
  constructor
  · intro he
    rw [he] at h1
    exact absurd h1 (by decide)
  · intro c hc
    rw [List.all_eq_true] at h2
    exact h2 c hc

/-- C1 witness: the amended theorem applied at the concrete input `Hi!`,
whose slug is `hi`. -/
theorem claim_C1_witness : allowedChar 'h' = true ∧ slugify (some "Hi!") ≠ "" :=
  ⟨(claim_C1_amended.1 (some "Hi!")).2 'h' (by decide), (claim_C1_amended.1 (some "Hi!")).1⟩

/-- C10: slugify is idempotent -- applying it to its own output returns
that output unchanged. -/
theorem claim_C10_idempotent : ∀ t : Option String, slugify (some (slugify t)) = slugify t := by
  intro t
  cases t with
  | none => decide
  | some s =>
    show String.mk (slugifyList (String.mk (slugifyList s.data)).data) = String.mk (slugifyList s.data)
    exact congrArg String.mk (slugifyList_fix _ (slugifyList_isSlug s.data))

end ObsDenote

namespace ObsDenote

end ObsDenote

namespace ObsDenote

/-- C6: the generated filename is `<timestamp>--<title-slug>` followed by
`__` and the underscore-joined, individually slugified tags when the
deduplicated tag set is non-empty, by nothing when it is empty, and then
the extension; and a string-valued `tags` field yields exactly the same
result as the one-element list containing it. -/
theorem claim_C6_filename_format :
    (∀ (mtime : DenoteTime) (stem : String) (metadata : Option Metadata) (content : String)
       (fmt : OutFormat),
      (generateDenoteFilename mtime stem metadata content fmt).1 =
        formatTs (generateDenoteFilename mtime stem metadata content fmt).2.2.2 ++ "--" ++
        slugify (some (generateDenoteFilename mtime stem metadata content fmt).2.1) ++
        (if ((generateDenoteFilename mtime stem metadata content fmt).2.2.1).isEmpty then ""
         else "__" ++ "_".intercalate
            (((generateDenoteFilename mtime stem metadata content fmt).2.2.1).map
              (fun t => slugify (some t)))) ++
        (if fmt = OutFormat.org then ".org" else ".md")) ∧
    (∀ (mtime : DenoteTime) (stem : String) (m : Metadata) (content : String) (fmt : OutFormat)
       (s : String),
      generateDenoteFilename mtime stem (some { m with tags := some (.str s) }) content fmt =
      generateDenoteFilename mtime stem (some { m with tags := some (.list [s]) }) content fmt) := by
  constructor
  · intro mtime stem metadata content fmt
    rfl
  · intro mtime stem m content fmt s
    by_cases hs : s = ""
    · subst hs
      simp [generateDenoteFilename, Metadata.truthy, metaTitle, aliasTitle, metaTags]
    · simp [generateDenoteFilename, Metadata.truthy, metaTitle, aliasTitle, metaTags, hs]

end ObsDenote

namespace ObsDenote

/-- C7: for input text that starts a frontmatter block (`---` line) and
contains the closing delimiter, failure of the YAML parse of the
delimited block returns empty metadata together with the original input
text unchanged as the body. -/
theorem claim_C7_parse_failure (parse : String → Except Unit (Option Metadata))
    (content : String) (j : Nat)
    (h0 : content.data.take 4 = ['-', '-', '-', '\n'])
    (h1 : findDelim (content.data.drop 4) = some j)
    (h2 : parse (String.mk ((content.data.drop 4).take j)) = .error ()) :
    extractYamlFrontmatter parse content = (some {}, content) := by
  rw [extractYamlFrontmatter, if_pos h0, h1]
  dsimp only
  rw [h2]

/-- C7 witness: a malformed block between delimiters (any parser outcome
modelling a `yaml.YAMLError`) on a concrete document. -/
theorem claim_C7_witness :
    extractYamlFrontmatter failParse "---\n:bad\n---\nbody" =
      (some {}, "---\n:bad\n---\nbody") :=
  claim_C7_parse_failure failParse "---\n:bad\n---\nbody" 4 (by decide) (by decide) rfl

end ObsDenote

namespace ObsDenote

/-! ### Unfolding lemmas for the regex-substitution scanners -/

theorem subWikiGo_mono (repl : List Char → List Char) :
    ∀ f1 : Nat, ∀ l : List Char, ∀ f2 : Nat, l.length < f1 → l.length < f2 →
      subWikiGo repl f1 l = subWikiGo repl f2 l := by
  intro f1
  induction f1 with
  | zero => intro l f2 h1 _; omega
  | succ f ih =>
    intro l f2 h1 h2
    cases f2 with
    | zero => omega
    | succ g =>
      cases l with
      | nil => rfl
      | cons c cs =>
        rw [subWikiGo, subWikiGo]
        simp only [List.length_cons] at h1 h2
        by_cases hc : c = '[' ∧ cs.take 1 = ['[']
        · rw [if_pos hc, if_pos hc]
          by_cases he : ((cs.drop 1).takeWhile (fun x => x ≠ ']')).isEmpty
          · rw [if_pos he, if_pos he, ih cs g (by omega) (by omega)]
          · rw [if_neg he, if_neg he]
            by_cases hm : (((cs.drop 1).drop ((cs.drop 1).takeWhile (fun x => x ≠ ']')).length).take 2) = [']', ']']
            · rw [if_pos hm, if_pos hm]
              have hlen : (((cs.drop 1).drop
                  (((cs.drop 1).takeWhile (fun x => x ≠ ']')).length + 2))).length ≤ cs.length := by
                simp only [List.length_drop]
                omega
              rw [ih _ g (by omega) (by omega)]
            · rw [if_neg hm, if_neg hm, ih cs g (by omega) (by omega)]
        · rw [if_neg hc, if_neg hc, ih cs g (by omega) (by omega)]

theorem subEmbedGo_mono :
    ∀ f1 : Nat, ∀ l : List Char, ∀ f2 : Nat, l.length < f1 → l.length < f2 →
      subEmbedGo f1 l = subEmbedGo f2 l := by
  intro f1
  induction f1 with
  | zero => intro l f2 h1 _; omega
  | succ f ih =>
    intro l f2 h1 h2
    cases f2 with
    | zero => omega
    | succ g =>
      cases l with
      | nil => rfl
      | cons c cs =>
        rw [subEmbedGo, subEmbedGo]
        simp only [List.length_cons] at h1 h2
        by_cases hc : c = '!' ∧ cs.take 2 = ['[', '[']
        · rw [if_pos hc, if_pos hc]
          by_cases he : ((cs.drop 2).takeWhile (fun x => x ≠ ']')).isEmpty
          · rw [if_pos he, if_pos he, ih cs g (by omega) (by omega)]
          · rw [if_neg he, if_neg he]
            by_cases hm : (((cs.drop 2).drop ((cs.drop 2).takeWhile (fun x => x ≠ ']')).length).take 2) = [']', ']']
            · rw [if_pos hm, if_pos hm]
              have hlen : (((cs.drop 2).drop
                  (((cs.drop 2).takeWhile (fun x => x ≠ ']')).length + 2))).length ≤ cs.length := by
                simp only [List.length_drop]
                omega
              rw [ih _ g (by omega) (by omega)]
            · rw [if_neg hm, if_neg hm, ih cs g (by omega) (by omega)]
        · rw [if_neg hc, if_neg hc, ih cs g (by omega) (by omega)]

theorem subWiki_consNoBrk (repl : List Char → List Char) (c : Char) (cs : List Char)
    (h : ¬(c = '[' ∧ cs.take 1 = ['['])) :
    subWiki repl (c :: cs) = c :: subWiki repl cs := by
  rw [subWiki, subWiki, List.length_cons, subWikiGo, if_neg h]

theorem takeWhile_append_stop {p : Char → Bool} :
    ∀ (A : List Char) (x : Char) (B : List Char), (∀ c ∈ A, p c = true) → p x = false →
      (A ++ x :: B).takeWhile p = A := by
  intro A
  induction A with
  | nil =>
    intro x B _ hx
    simpa [List.takeWhile_cons] using hx
  | cons a as ih =>
    intro x B hall hx
    rw [List.cons_append, List.takeWhile_cons_of_pos (hall a (List.mem_cons_self a as))]
    rw [ih x B (fun c hc => hall c (List.mem_cons_of_mem a hc)) hx]

theorem drop_append_two : ∀ (A : List Char) (x y : Char) (B : List Char),
    (A ++ x :: y :: B).drop (A.length + 2) = B := by
  intro A x y B
  have h1 : A ++ x :: y :: B = (A ++ [x, y]) ++ B := by simp
  rw [h1]
  exact List.drop_left' (by simp [Nat.add_comm])

theorem subWiki_matchAt (repl : List Char → List Char) (A B : List Char)
    (hA : A ≠ []) (hA2 : ∀ c ∈ A, c ≠ ']') :
    subWiki repl ('[' :: '[' :: (A ++ ']' :: ']' :: B)) = repl A ++ subWiki repl B := by
  have htw : (A ++ ']' :: ']' :: B).takeWhile (fun x => x ≠ ']') = A :=
    takeWhile_append_stop A ']' (']' :: B) (fun c hc => by simpa using hA2 c hc) (by simp)
  have hdrop : (A ++ ']' :: ']' :: B).drop A.length = ']' :: ']' :: B := List.drop_left A _
  have hdrop2 : (A ++ ']' :: ']' :: B).drop (A.length + 2) = B := drop_append_two A ']' ']' B
  rw [subWiki, List.length_cons, List.length_cons, subWikiGo]
  rw [if_pos (by simp : ('[' : Char) = '[' ∧ ('[' :: (A ++ ']' :: ']' :: B)).take 1 = ['['])]
  simp only [List.drop_succ_cons, List.drop_zero]
  rw [htw]
  rw [if_neg (by simpa [List.isEmpty_iff] using hA)]
  rw [hdrop]
  rw [if_pos (by rfl)]
  rw [hdrop2]
  rw [subWiki]
  apply congrArg (repl A ++ ·)
  apply subWikiGo_mono
  · simp only [List.length_append, List.length_cons]
    omega
  · omega

theorem subWikiGo_noBrkAll : ∀ (fuel : Nat) (l : List Char) (repl : List Char → List Char),
    l.length < fuel → (∀ c ∈ l, c ≠ '[') → subWikiGo repl fuel l = l := by
  intro fuel
  induction fuel with
  | zero => intro l repl h _; omega
  | succ f ih =>
    intro l repl h hall
    cases l with
    | nil => rfl
    | cons c cs =>
      rw [subWikiGo]
      rw [if_neg (by
        intro hcon
        exact hall c (List.mem_cons_self c cs) hcon.1)]
      simp only [List.length_cons] at h
      rw [ih cs repl (by omega) (fun x hx => hall x (List.mem_cons_of_mem c hx))]

theorem subWiki_nilE (repl : List Char → List Char) : subWiki repl [] = [] := rfl

theorem subEmbedGo_noBang : ∀ (fuel : Nat) (l : List Char),
    l.length < fuel → (∀ c ∈ l, c ≠ '!') → subEmbedGo fuel l = l := by
  intro fuel
  induction fuel with
  | zero => intro l h _; omega
  | succ f ih =>
    intro l h hall
    cases l with
    | nil => rfl
    | cons c cs =>
      rw [subEmbedGo]
      rw [if_neg (by
        intro hcon
        exact hall c (List.mem_cons_self c cs) hcon.1)]
      simp only [List.length_cons] at h
      rw [ih cs (by omega) (fun x hx => hall x (List.mem_cons_of_mem c hx))]

theorem subEmbed_noBang (l : List Char) (hall : ∀ c ∈ l, c ≠ '!') : subEmbed l = l :=
  subEmbedGo_noBang (l.length + 1) l (by omega) hall

end ObsDenote

namespace ObsDenote

theorem plainLinkChar_spec {c : Char} (h : plainLinkChar c = true) :
    c ≠ ']' ∧ c ≠ '[' ∧ c ≠ '!' ∧ c ≠ '|' := by
  simp only [plainLinkChar, Bool.and_eq_true, decide_eq_true_eq] at h
  tauto

theorem displayChar_spec {c : Char} (h : displayChar c = true) :
    c ≠ ']' ∧ c ≠ '[' ∧ c ≠ '!' := by
  simp only [displayChar, Bool.and_eq_true, decide_eq_true_eq] at h
  tauto

theorem dropWhile_append_stop {p : Char → Bool} :
    ∀ (A : List Char) (x : Char) (B : List Char), (∀ c ∈ A, p c = true) → p x = false →
      (A ++ x :: B).dropWhile p = x :: B := by
  intro A
  induction A with
  | nil =>
    intro x B _ hx
    rw [List.nil_append, List.dropWhile_cons_of_neg (by simp [hx])]
  | cons a as ih =>
    intro x B hall hx
    rw [List.cons_append, List.dropWhile_cons_of_pos (hall a (List.mem_cons_self a as))]
    exact ih x B (fun c hc => hall c (List.mem_cons_of_mem a hc)) hx

theorem contains_false_of {l : List Char} {x : Char} (h : ∀ c ∈ l, c ≠ x) :
    l.contains x = false := by
  by_contra hc
  rw [Bool.not_eq_false] at hc
  rcases List.contains_iff_exists_mem_beq.mp hc with ⟨a, ha, hb⟩
  exact h a ha (beq_iff_eq.mp hb).symm

theorem find?_append_first {α : Type} (p : α → Bool) :
    ∀ (m1 : List α) (x : α) (m2 : List α), (∀ e ∈ m1, p e = false) → p x = true →
      (m1 ++ x :: m2).find? p = some x := by
  intro m1
  induction m1 with
  | nil => intro x m2 _ hx; rw [List.nil_append, List.find?_cons_of_pos _ hx]
  | cons a as ih =>
    intro x m2 hall hx
    rw [List.cons_append, List.find?_cons_of_neg _ (by simp [hall a (List.mem_cons_self a as)])]
    exact ih x m2 (fun e he => hall e (List.mem_cons_of_mem a he)) hx

theorem noBang_append {l1 l2 : List Char} (h1 : ∀ c ∈ l1, c ≠ '!') (h2 : ∀ c ∈ l2, c ≠ '!') :
    ∀ c ∈ l1 ++ l2, c ≠ '!' := by
  intro c hc
  rcases List.mem_append.mp hc with h | h
  · exact h1 c h
  · exact h2 c h

/-- C3: for org output, a wiki-link `[[target]]` is rewritten to
`[[file:<resolved>.org][target]]` and `[[target|display]]` to
`[[file:<resolved>.org][display]]`, where `<resolved>` is the Denote
stem recorded in the file mapping for the first previously converted
note whose original stem equals the target, and the target itself when
no mapping entry matches.  The character hypotheses delimit one wiki
link, as the regex group `[^\]]+` does. -/
theorem claim_C3_org_links (mapping : List (String × String)) (t d : String)
    (htne : t.data ≠ [])
    (ht : ∀ c ∈ t.data, plainLinkChar c = true)
    (hd : ∀ c ∈ d.data, displayChar c = true)
    (hr : ∀ c ∈ (resolveLink mapping t).data, displayChar c = true) :
    (convertLinks true mapping ("[[" ++ t ++ "]]") true =
      "[[file:" ++ resolveLink mapping t ++ ".org][" ++ t ++ "]]") ∧
    (convertLinks true mapping ("[[" ++ t ++ "|" ++ d ++ "]]") true =
      "[[file:" ++ resolveLink mapping t ++ ".org][" ++ d ++ "]]") ∧
    ((∀ e ∈ mapping, pathStem e.1 ≠ t) → resolveLink mapping t = t) ∧
    (∀ (m1 : List (String × String)) (oldName newName : String) (m2 : List (String × String)),
      mapping = m1 ++ (oldName, newName) :: m2 → pathStem oldName = t →
      (∀ e ∈ m1, pathStem e.1 ≠ t) → resolveLink mapping t = pathStem newName) := by
  have hnp : t.data.contains '|' = false :=
    contains_false_of (fun c hc => (plainLinkChar_spec (ht c hc)).2.2.2)
  have hsplit : splitPipe t.data = (t.data, t.data) := by
    rw [splitPipe, if_neg (by rw [hnp]; exact Bool.noConfusion)]
  have hmkt : String.mk t.data = t := rfl
  refine ⟨?_, ?_, ?_, ?_⟩
  · show String.mk (subEmbed (subWiki (wikiRepl mapping true) ("[[" ++ t ++ "]]").data)) = _
    have hdata : ("[[" ++ t ++ "]]").data = '[' :: '[' :: (t.data ++ ']' :: ']' :: []) := by
      simp [String.data_append]
    rw [hdata]
    rw [subWiki_matchAt _ _ _ htne (fun c hc => (plainLinkChar_spec (ht c hc)).1)]
    rw [subWiki_nilE, List.append_nil]
    rw [wikiRepl, hsplit]
    simp only [hmkt, if_true]
    rw [subEmbed_noBang _ (noBang_append (noBang_append (noBang_append (noBang_append
      (by decide) (fun c hc => (displayChar_spec (hr c hc)).2.2)) (by decide))
      (fun c hc => (plainLinkChar_spec (ht c hc)).2.2.1)) (by decide))]
    apply congrArg String.mk
    simp only [String.data_append, List.append_assoc]
    rfl
  · show String.mk (subEmbed (subWiki (wikiRepl mapping true) ("[[" ++ t ++ "|" ++ d ++ "]]").data)) = _
    have hdata : ("[[" ++ t ++ "|" ++ d ++ "]]").data =
        '[' :: '[' :: ((t.data ++ '|' :: d.data) ++ ']' :: ']' :: []) := by
      simp [String.data_append]
    rw [hdata]
    rw [subWiki_matchAt _ _ _ (by simp) (by
      intro c hc
      simp only [List.mem_append, List.mem_cons] at hc
      rcases hc with hc | hc | hc
      · exact (plainLinkChar_spec (ht c hc)).1
      · subst hc; decide
      · exact (displayChar_spec (hd c hc)).1)]
    rw [subWiki_nilE, List.append_nil]
    rw [wikiRepl]
    rw [show splitPipe (t.data ++ '|' :: d.data) = (t.data, d.data) by
      rw [splitPipe, if_pos]
      · simp only [Prod.mk.injEq]
        constructor
        · exact takeWhile_append_stop t.data '|' d.data
            (fun c hc => by simpa using (plainLinkChar_spec (ht c hc)).2.2.2) (by simp)
        · rw [dropWhile_append_stop t.data '|' d.data
            (fun c hc => by simpa using (plainLinkChar_spec (ht c hc)).2.2.2) (by simp)]
          rfl
      · show (t.data ++ '|' :: d.data).contains '|' = true
        rw [List.contains_iff_exists_mem_beq]
        exact ⟨'|', by simp, by simp⟩]
    simp only [hmkt, if_true]
    rw [subEmbed_noBang _ (noBang_append (noBang_append (noBang_append (noBang_append
      (by decide) (fun c hc => (displayChar_spec (hr c hc)).2.2)) (by decide))
      (fun c hc => (displayChar_spec (hd c hc)).2.2)) (by decide))]
    apply congrArg String.mk
    simp only [String.data_append, List.append_assoc]
    rfl
  · intro hnone
    rw [resolveLink, List.find?_eq_none.mpr (by
      intro e he
      simp only [beq_iff_eq]
      exact hnone e he)]
  · intro m1 oldName newName m2 hmap hold hm1
    rw [resolveLink, hmap, find?_append_first _ m1 (oldName, newName) m2 (by
      intro e he
      simp only [beq_eq_false_iff_ne, ne_eq]
      exact hm1 e he) (by simpa using hold)]

end ObsDenote

namespace ObsDenote

/-- C3 witness: both link forms at concrete inputs, one resolving through
a populated file mapping and one left unresolved. -/
theorem claim_C3_witness :
    convertLinks true [] "[[my-note]]" true = "[[file:my-note.org][my-note]]" ∧
    convertLinks true [("vault/my-note.md", "20240115T103000--my-note.org")]
        ("[[" ++ "my-note" ++ "|" ++ "the note" ++ "]]") true =
      "[[file:20240115T103000--my-note.org][the note]]" ∧
    resolveLink [] "my-note" = "my-note" := by
  refine ⟨?_, ?_, ?_⟩
  · exact (claim_C3_org_links [] "my-note" "x" (by decide) (by decide) (by decide) (by decide)).1
  · have h := (claim_C3_org_links [("vault/my-note.md", "20240115T103000--my-note.org")]
      "my-note" "the note" (by decide) (by decide) (by decide) (by decide)).2.1
    rw [h]
    decide
  · exact (claim_C3_org_links [] "my-note" "x" (by decide) (by decide) (by decide)
      (by decide)).2.2.1 (by decide)

theorem all_mem_append {P : Char → Prop} {l1 l2 : List Char}
    (h1 : ∀ c ∈ l1, P c) (h2 : ∀ c ∈ l2, P c) : ∀ c ∈ l1 ++ l2, P c := by
  intro c hc
  rcases List.mem_append.mp hc with h | h
  · exact h1 c h
  · exact h2 c h

theorem subEmbed_bangFail (W : List Char)
    (hfail : ((W.takeWhile (fun x => x ≠ ']')).isEmpty = true) ∨
             ((W.drop (W.takeWhile (fun x => x ≠ ']')).length).take 2 ≠ [']', ']'])) :
    subEmbed ('!' :: '[' :: '[' :: W) = '!' :: subEmbed ('[' :: '[' :: W) := by
  rw [subEmbed, subEmbed]
  simp only [List.length_cons]
  rw [subEmbedGo]
  rw [if_pos (by exact ⟨rfl, rfl⟩)]
  simp only [List.drop_succ_cons, List.drop_zero]
  by_cases he : (W.takeWhile (fun x => x ≠ ']')).isEmpty = true
  · rw [if_pos he]
  · rcases hfail with h | h
    · exact absurd h he
    · rw [if_neg he, if_neg h]

/-- C4 counterexample: the claim says every `![[ref]]` present when
`convert_links` runs becomes `[[file:ref]]`; in fact the wiki-link pass
(converter.py:160) rewrites the inner `[[img.png]]` first, producing
`![[file:img.png.org][img.png]]`, and the embed pass (converter.py:163)
no longer matches. -/
theorem claim_C4_counterexample :
    convertLinks true [] "![[img.png]]" true = "![[file:img.png.org][img.png]]" ∧
    convertLinks true [] "![[img.png]]" true ≠ "[[file:img.png]]" := by
  decide

/-- C4 (amended): an embedded reference `![[ref]]` in the content is
rewritten by the wiki-link substitution into
`![[file:<resolved>.org][ref]]` -- the leading `!` is kept and the target
resolved through the file mapping like any wiki-link -- and the dedicated
embed substitution `[[file:ref]]` never applies to it. -/
theorem claim_C4_amended (mapping : List (String × String)) (ref : String)
    (hne : ref.data ≠ [])
    (hc : ∀ c ∈ ref.data, plainLinkChar c = true)
    (hr : ∀ c ∈ (resolveLink mapping ref).data, displayChar c = true) :
    convertLinks true mapping ("![[" ++ ref ++ "]]") true =
      "![[file:" ++ resolveLink mapping ref ++ ".org][" ++ ref ++ "]]" := by
  have hnp : ref.data.contains '|' = false :=
    contains_false_of (fun c hcm => (plainLinkChar_spec (hc c hcm)).2.2.2)
  have hsplit : splitPipe ref.data = (ref.data, ref.data) := by
    rw [splitPipe, if_neg (by rw [hnp]; exact Bool.noConfusion)]
  have hmkr : String.mk ref.data = ref := rfl
  show String.mk (subEmbed (subWiki (wikiRepl mapping true) ("![[" ++ ref ++ "]]").data)) = _
  have hdata : ("![[" ++ ref ++ "]]").data = '!' :: '[' :: '[' :: (ref.data ++ ']' :: ']' :: []) := by
    simp [String.data_append]
  rw [hdata]
  rw [subWiki_consNoBrk _ '!' _ (by intro hcon; exact absurd hcon.1 (by decide))]
  rw [subWiki_matchAt _ _ _ hne (fun c hcm => (plainLinkChar_spec (hc c hcm)).1)]
  rw [subWiki_nilE, List.append_nil]
  rw [wikiRepl, hsplit]
  simp only [hmkr, if_true]
  have hassoc : ('!' : Char) :: ("[[file:".data ++ (resolveLink mapping ref).data ++
      ".org][".data ++ ref.data ++ "]]".data) =
      '!' :: '[' :: '[' :: (("file:".data ++ (resolveLink mapping ref).data ++ ".org".data) ++
        ']' :: '[' :: (ref.data ++ "]]".data)) := by
    simp [List.append_assoc]
  rw [hassoc]
  have hA : ∀ c ∈ ("file:".data ++ (resolveLink mapping ref).data ++ ".org".data), c ≠ ']' :=
    all_mem_append (all_mem_append (by decide)
      (fun c hcm => (displayChar_spec (hr c hcm)).1)) (by decide)
  have htw : (("file:".data ++ (resolveLink mapping ref).data ++ ".org".data) ++
      ']' :: '[' :: (ref.data ++ "]]".data)).takeWhile (fun x => x ≠ ']') =
      "file:".data ++ (resolveLink mapping ref).data ++ ".org".data :=
    takeWhile_append_stop _ ']' _ (fun c hcm => by simpa using hA c hcm) (by simp)
  rw [subEmbed_bangFail _ (by
    right
    rw [htw, List.drop_left]
    simp)]
  have hnb : ∀ c ∈ ('[' :: '[' :: (("file:".data ++ (resolveLink mapping ref).data ++
      ".org".data) ++ ']' :: '[' :: (ref.data ++ "]]".data))), c ≠ '!' := by
    intro c hcm hceq
    subst hceq
    simp at hcm
    rcases hcm with h | h
    · exact (displayChar_spec (hr _ h)).2.2 rfl
    · exact (plainLinkChar_spec (hc _ h)).2.2.1 rfl
  rw [subEmbed_noBang _ hnb]
  apply congrArg String.mk
  simp only [String.data_append, List.append_assoc]
  rfl

/-- C4 witness: the amended theorem at a concrete embed with an empty
file mapping. -/
theorem claim_C4_witness :
    convertLinks true [] ("![[" ++ "img.png" ++ "]]") true =
      "![[file:" ++ resolveLink [] "img.png" ++ ".org][" ++ "img.png" ++ "]]" :=
  claim_C4_amended [] "img.png" (by decide) (by decide) (by decide)

end ObsDenote

namespace ObsDenote

/-- C2 (code-bug evaluation): the directory walk with `add_folder_tags`
on a note `projects/my-project.md` carrying no metadata tags.  The branch
at converter.py:534-549 computes the folder tag `projects` and appends it
to a local metadata dict -- second conjunct -- but `convert_file` re-reads
the file and re-extracts metadata itself (converter.py:445-448), so the
produced filename has no tag segment and the rendered `tags:` line is
empty: the folder tag never reaches the output. -/
theorem claim_C2_folder_tags_lost :
    convertDirectoryMd failParse true
      [{ parts := ["projects", "my-project.md"], read := .ok "# My Project",
         mtime := sampleTime }] [] =
      [("20240115T103000--my-project.md",
        "---\ntitle: My Project\ndate: 2024-01-15\ntags: \nidentifier: 20240115T103000\n---\n# My Project")] ∧
    addFolderTagsToMeta {} ["projects"] = { tags := some (.list ["projects"]) } := by
  decide

theorem convertLinks_md_preserved (m : List (String × String)) (content : String) :
    convertLinks true m content false = content := rfl

theorem convertOne_read_err (parse : String → Except Unit (Option Metadata)) (aft : Bool)
    (fm : List (String × String)) (f : FsFile) (e : String) (h : f.read = .error e) :
    convertOne parse aft fm f = .error e := by
  rw [convertOne, convertFileMd]
  by_cases hc : aft && !(f.parts.dropLast.isEmpty)
  · simp [hc, h, Bind.bind, Except.bind, Pure.pure, Except.pure]
  · simp [hc, h, Bind.bind, Except.bind, Pure.pure, Except.pure]

theorem convertDirectoryMd_nilE (parse : String → Except Unit (Option Metadata)) (aft : Bool)
    (fm : List (String × String)) : convertDirectoryMd parse aft [] fm = [] := rfl

theorem convertDirectoryMd_consE (parse : String → Except Unit (Option Metadata)) (aft : Bool)
    (f : FsFile) (fs : List FsFile) (fm : List (String × String)) :
    convertDirectoryMd parse aft (f :: fs) fm =
      match convertOne parse aft fm f with
      | .ok out => out.1 :: convertDirectoryMd parse aft fs out.2
      | .error _ => convertDirectoryMd parse aft fs fm := rfl

theorem convertDirectoryMd_mapFree (parse : String → Except Unit (Option Metadata)) (aft : Bool) :
    ∀ (fs : List FsFile) (fm fm' : List (String × String)),
      convertDirectoryMd parse aft fs fm = convertDirectoryMd parse aft fs fm' := by
  intro fs
  induction fs with
  | nil => intro fm fm'; rfl
  | cons f fs ih =>
    intro fm fm'
    rw [convertDirectoryMd_consE, convertDirectoryMd_consE]
    cases hr : f.read with
    | error e =>
      rw [convertOne_read_err parse aft fm f e hr, convertOne_read_err parse aft fm' f e hr]
      exact ih fm fm'
    | ok content =>
      simp only [convertOne, convertFileMd, hr, convertLinks_md_preserved, bind, Except.bind,
        pure, Except.pure]
      by_cases hc : aft && !(f.parts.dropLast.isEmpty)
      · simp only [hc, if_true, hr]
        rw [ih]
      · simp only [hc, Bool.false_eq_true, if_false]
        rw [ih]

/-- C9: a conversion failure on one file of a batch is caught; every file
before and after it is still processed, and the failed file contributes
nothing to the returned list. -/
theorem claim_C9_per_file_isolation (parse : String → Except Unit (Option Metadata)) (aft : Bool)
    (fm : List (String × String)) (pre post : List FsFile) (bad : FsFile) (e : String)
    (hbad : bad.read = .error e) :
    convertDirectoryMd parse aft (pre ++ bad :: post) fm =
      convertDirectoryMd parse aft pre fm ++ convertDirectoryMd parse aft post fm := by
  induction pre generalizing fm with
  | nil =>
    rw [List.nil_append, convertDirectoryMd_consE, convertOne_read_err parse aft fm bad e hbad,
      convertDirectoryMd_nilE, List.nil_append]
  | cons f fs ih =>
    rw [List.cons_append, convertDirectoryMd_consE, convertDirectoryMd_consE]
    cases ho : convertOne parse aft fm f with
    | error e2 => exact ih fm
    | ok out =>
      dsimp only
      rw [ih out.2]
      rw [convertDirectoryMd_mapFree parse aft post out.2 fm, List.cons_append]

/-- C9 witness: a three-file batch whose middle file fails to read; the
walk returns exactly the outputs of the surrounding two files. -/
theorem claim_C9_witness :
    convertDirectoryMd failParse false
        ([⟨["a.md"], .ok "hello", sampleTime⟩] ++
          (⟨["bad.md"], .error "boom", sampleTime⟩ : FsFile) ::
          [⟨["b.md"], .ok "world", sampleTime⟩]) [] =
      convertDirectoryMd failParse false [⟨["a.md"], .ok "hello", sampleTime⟩] [] ++
      convertDirectoryMd failParse false [⟨["b.md"], .ok "world", sampleTime⟩] [] :=
  claim_C9_per_file_isolation failParse false [] [⟨["a.md"], .ok "hello", sampleTime⟩]
    [⟨["b.md"], .ok "world", sampleTime⟩] ⟨["bad.md"], .error "boom", sampleTime⟩ "boom" rfl

end ObsDenote

namespace ObsDenote

theorem find?_append_some {α : Type} (p : α → Bool) :
    ∀ (l1 : List α) (x : α), l1.find? p = some x → ∀ l2, (l1 ++ l2).find? p = some x := by
  intro l1
  induction l1 with
  | nil => intro x h _; exact absurd h (by simp)
  | cons a as ih =>
    intro x h l2
    by_cases ha : p a = true
    · rw [List.find?_cons_of_pos _ ha] at h
      rw [List.cons_append, List.find?_cons_of_pos _ ha]
      exact h
    · rw [List.find?_cons_of_neg _ ha] at h
      rw [List.cons_append, List.find?_cons_of_neg _ ha]
      exact ih x h l2

theorem find?_append_none {α : Type} (p : α → Bool) :
    ∀ (l1 : List α), l1.find? p = none → ∀ l2, (l1 ++ l2).find? p = l2.find? p := by
  intro l1
  induction l1 with
  | nil => intro _ l2; rfl
  | cons a as ih =>
    intro h l2
    by_cases ha : p a = true
    · rw [List.find?_cons_of_pos _ ha] at h
      exact absurd h (by simp)
    · rw [List.find?_cons_of_neg _ ha] at h
      rw [List.cons_append, List.find?_cons_of_neg _ ha]
      exact ih h l2

theorem countCopiesFor_append_one (copies : List (String × String)) (p rel k : String) :
    countCopiesFor (copies ++ [(p, rel)]) k =
      countCopiesFor copies k + (if p = k then 1 else 0) := by
  rw [countCopiesFor, countCopiesFor, List.filter_append, List.length_append]
  congr 1
  by_cases h : p = k
  · simp [h]
  · simp [h]

theorem copyAsset_step (digest : String → String) (adir : String) (p : String) (st : AssetState)
    (hSome : ∀ k e, st.mapping.find? (fun x => x.1 == k) = some e →
      e.2 = canonicalAssetDest digest adir k ∧ countCopiesFor st.copies k = 1)
    (hNone : ∀ k, st.mapping.find? (fun x => x.1 == k) = none →
      countCopiesFor st.copies k = 0) :
    (copyAsset digest adir p st).1 = canonicalAssetDest digest adir p ∧
    (∀ k e, (copyAsset digest adir p st).2.mapping.find? (fun x => x.1 == k) = some e →
      e.2 = canonicalAssetDest digest adir k ∧
      countCopiesFor (copyAsset digest adir p st).2.copies k = 1) ∧
    (∀ k, (copyAsset digest adir p st).2.mapping.find? (fun x => x.1 == k) = none →
      countCopiesFor (copyAsset digest adir p st).2.copies k = 0) ∧
    ((copyAsset digest adir p st).2.mapping.find? (fun x => x.1 == p)).isSome ∧
    (∀ k, (st.mapping.find? (fun x => x.1 == k)).isSome →
      ((copyAsset digest adir p st).2.mapping.find? (fun x => x.1 == k)).isSome) := by
  rw [copyAsset]
  cases hf : st.mapping.find? (fun e => e.1 == p) with
  | some e =>
    refine ⟨(hSome p e hf).1, hSome, hNone, ?_, fun k hk => hk⟩
    rw [hf]
    rfl
  | none =>
    refine ⟨rfl, ?_, ?_, ?_, ?_⟩
    · intro k e2 hk
      by_cases hkp : p = k
      · subst hkp
        rw [find?_append_none _ _ hf] at hk
        rw [List.find?_cons_of_pos _ (by simp)] at hk
        have he2 : e2 = (p, canonicalAssetDest digest adir p) := by injection hk with h1; exact h1.symm
        subst he2
        refine ⟨rfl, ?_⟩
        rw [countCopiesFor_append_one, hNone p hf, if_pos rfl]
      · have hfk : st.mapping.find? (fun x => x.1 == k) = some e2 := by
          by_cases hck : (st.mapping.find? (fun x => x.1 == k)).isSome
          · rcases Option.isSome_iff_exists.mp hck with ⟨e3, he3⟩
            rw [find?_append_some _ _ e3 he3] at hk
            rw [he3, hk]
          · rw [Option.not_isSome_iff_eq_none] at hck
            rw [find?_append_none _ _ hck] at hk
            rw [List.find?_cons_of_neg _ (by simp [hkp])] at hk
            exact absurd hk (by simp)
        refine ⟨(hSome k e2 hfk).1, ?_⟩
        rw [countCopiesFor_append_one, (hSome k e2 hfk).2, if_neg hkp]
    · intro k hk
      by_cases hck : (st.mapping.find? (fun x => x.1 == k)).isSome
      · rcases Option.isSome_iff_exists.mp hck with ⟨e3, he3⟩
        rw [find?_append_some _ _ e3 he3] at hk
        exact absurd hk (by simp)
      · rw [Option.not_isSome_iff_eq_none] at hck
        rw [find?_append_none _ _ hck] at hk
        by_cases hkp : p = k
        · rw [List.find?_cons_of_pos _ (by simp [hkp])] at hk
          exact absurd hk (by simp)
        · rw [countCopiesFor_append_one, hNone k hck, if_neg hkp]
    · rw [find?_append_none _ _ hf, List.find?_cons_of_pos _ (by simp)]
      rfl
    · intro k hk
      rcases Option.isSome_iff_exists.mp hk with ⟨e3, he3⟩
      rw [find?_append_some _ _ e3 he3]
      rfl

theorem runCopyAssets_invariant (digest : String → String) (adir : String) :
    ∀ (reqs : List String) (st : AssetState),
    (∀ k e, st.mapping.find? (fun x => x.1 == k) = some e →
      e.2 = canonicalAssetDest digest adir k ∧ countCopiesFor st.copies k = 1) →
    (∀ k, st.mapping.find? (fun x => x.1 == k) = none → countCopiesFor st.copies k = 0) →
    ((∀ k e, (runCopyAssets digest adir reqs st).2.mapping.find? (fun x => x.1 == k) = some e →
        e.2 = canonicalAssetDest digest adir k ∧
        countCopiesFor (runCopyAssets digest adir reqs st).2.copies k = 1) ∧
     (∀ k, (runCopyAssets digest adir reqs st).2.mapping.find? (fun x => x.1 == k) = none →
        countCopiesFor (runCopyAssets digest adir reqs st).2.copies k = 0) ∧
     (∀ pr ∈ reqs.zip (runCopyAssets digest adir reqs st).1,
        pr.2 = canonicalAssetDest digest adir pr.1) ∧
     (∀ q ∈ reqs,
        ((runCopyAssets digest adir reqs st).2.mapping.find? (fun x => x.1 == q)).isSome) ∧
     (∀ k, (st.mapping.find? (fun x => x.1 == k)).isSome →
        ((runCopyAssets digest adir reqs st).2.mapping.find? (fun x => x.1 == k)).isSome)) := by
  intro reqs
  induction reqs with
  | nil =>
    intro st hSome hNone
    exact ⟨hSome, hNone, by simp, by simp, fun k hk => hk⟩
  | cons q qs ih =>
    intro st hSome hNone
    obtain ⟨hres, hS1, hN1, hsome1, hmono1⟩ := copyAsset_step digest adir q st hSome hNone
    rw [runCopyAssets]
    obtain ⟨hS2, hN2, hzip2, hall2, hmono2⟩ := ih (copyAsset digest adir q st).2 hS1 hN1
    refine ⟨hS2, hN2, ?_, ?_, ?_⟩
    · intro pr hpr
      rw [List.zip_cons_cons] at hpr
      rcases List.mem_cons.mp hpr with h | h
      · rw [h]
        exact hres
      · exact hzip2 pr h
    · intro q2 hq2
      rcases List.mem_cons.mp hq2 with h | h
      · subst h
        exact hmono2 q2 hsome1
      · exact hall2 q2 h
    · intro k hk
      exact hmono2 k (hmono1 k hk)

/-- C8: within one converter run, `copy_asset` calls sharing a source
path perform the physical copy exactly once -- the copy count for a
requested path is already 1 after any prefix containing it and still 1
at the end -- and every call with that source path returns the same
destination, `<assets-dir>/<stem>_<8-digest-chars><suffix>`. -/
theorem claim_C8_asset_dedup (digest : String → String) (adir : String)
    (pre suf : List String) (p : String) (hp : p ∈ pre) :
    countCopiesFor ((runCopyAssets digest adir pre {}).2).copies p = 1 ∧
    countCopiesFor ((runCopyAssets digest adir (pre ++ suf) {}).2).copies p = 1 ∧
    (∀ pr ∈ (pre ++ suf).zip (runCopyAssets digest adir (pre ++ suf) {}).1, pr.1 = p →
      pr.2 = canonicalAssetDest digest adir p) := by
  have hbase1 : ∀ k e, (AssetState.mapping {}).find? (fun x => x.1 == k) = some e →
      e.2 = canonicalAssetDest digest adir k ∧ countCopiesFor (AssetState.copies {}) k = 1 := by
    intro k e h
    exact absurd h (by simp [AssetState.mapping])
  have hbase2 : ∀ k, (AssetState.mapping {}).find? (fun x => x.1 == k) = none →
      countCopiesFor (AssetState.copies {}) k = 0 := by
    intro k _
    rfl
  obtain ⟨hS1, _, _, hall1, _⟩ := runCopyAssets_invariant digest adir pre {} hbase1 hbase2
  obtain ⟨hS2, _, hzip2, hall2, _⟩ :=
    runCopyAssets_invariant digest adir (pre ++ suf) {} hbase1 hbase2
  refine ⟨?_, ?_, ?_⟩
  · rcases Option.isSome_iff_exists.mp (hall1 p hp) with ⟨e, he⟩
    exact (hS1 p e he).2
  · rcases Option.isSome_iff_exists.mp (hall2 p (List.mem_append.mpr (Or.inl hp))) with ⟨e, he⟩
    exact (hS2 p e he).2
  · intro pr hpr hpr1
    rw [← hpr1]
    exact hzip2 pr hpr

/-- C8 witness: two requests for the same asset path around another
asset; the shared path is copied once and both calls return the shared
destination. -/
theorem claim_C8_witness :
    countCopiesFor ((runCopyAssets (fun _ => "0123456789abcdef") "assets"
        ["a/img.png", "b/x.pdf"] {}).2).copies "a/img.png" = 1 ∧
    countCopiesFor ((runCopyAssets (fun _ => "0123456789abcdef") "assets"
        (["a/img.png", "b/x.pdf"] ++ ["a/img.png"]) {}).2).copies "a/img.png" = 1 :=
  ⟨(claim_C8_asset_dedup (fun _ => "0123456789abcdef") "assets" ["a/img.png", "b/x.pdf"]
      ["a/img.png"] "a/img.png" (by decide)).1,
   (claim_C8_asset_dedup (fun _ => "0123456789abcdef") "assets" ["a/img.png", "b/x.pdf"]
      ["a/img.png"] "a/img.png" (by decide)).2.1⟩

end ObsDenote
